import Mathlib

/-!
# Verification of the `base58` crate's `ToBase58` encoder

Shallow embedding of `src/lib.rs` (`impl ToBase58 for [u8]`).  Bytes are
modelled as `Nat` values (with `< 256` hypotheses where the `u8` type
matters), the work buffer as a `List Nat` of base-58 digit values, and the
output as a Lean `String`.

The Rust inner loop (`while j > high || carry != 0`) clamps its index at 0
and is not terminating on arbitrary (unreachable) states, so the embedding
threads an explicit fuel through it; `none` models a non-terminating or
panicking run.  `to_base58` invokes the loop with fuel `size`, one unit per
buffer position: the correctness theorem shows this always suffices on
actual byte inputs, which is exactly the claim that no buffer position is
processed twice within one byte's scan.
-/

namespace Base58

/-- `const ALPHABET: &'static [u8]` from `src/lib.rs` line 5 (as characters;
all entries are ASCII, and the Rust code casts each selected byte to `char`). -/
def ALPHABET : List Char :=
  "123456789ABCDEFGHJKLMNPQRSTUVWXYZabcdefghijkmnopqrstuvwxyz".data

/-- One iteration of the Rust inner loop body (`src/lib.rs` lines 41-48),
given the value `bj` read from `buffer[j]`:
`carry += 256 * buffer[j]; buffer[j] = carry % 58; carry /= 58;
if j > 0 { j -= 1 }`.  Returns the new buffer, the new `j` and the new
`carry`. -/
def innerBody (buffer : List Nat) (j bj carry : Nat) : List Nat × Nat × Nat :=
  let carry2 := carry + 256 * bj
  (buffer.set j (carry2 % 58), (if 0 < j then j - 1 else j), carry2 / 58)

/-- The Rust inner loop `while j > high || carry != 0 { ... }`
(`src/lib.rs` lines 40-49), with explicit fuel.  `none` models a run that
panics on an out-of-bounds read or does not finish within the fuel. -/
def innerLoop (fuel : Nat) (buffer : List Nat) (j high carry : Nat) :
    Option (List Nat × Nat) :=
  if high < j ∨ carry ≠ 0 then
    match fuel, buffer.get? j with
    | 0, _ => none
    | _ + 1, none => none
    | fuel + 1, some bj =>
      let s := innerBody buffer j bj carry
      innerLoop fuel s.1 s.2.1 high s.2.2
  else
    some (buffer, j)

/-- The Rust outer loop `while i < self.len()` (`src/lib.rs` lines 36-53):
for each remaining input byte, run the inner scan from `j = size - 1` with
`carry` initialised to the byte, then set `high` to the final `j`. -/
def processBytes : Nat → Nat → List Nat → List Nat → Nat → Option (List Nat × Nat)
  | _, _, [], buffer, high => some (buffer, high)
  | fuel, size, c :: rest, buffer, high =>
    (innerLoop fuel buffer (size - 1) high c).bind fun s =>
      processBytes fuel size rest s.1 s.2

/-- The output pass `result.push(ALPHABET[buffer[j] as usize] as char)`
(`src/lib.rs` lines 62-65) over the digits that remain after skipping the
leading zero digits; `none` models an out-of-bounds `ALPHABET` index. -/
def emit : List Nat → Option (List Char)
  | [] => some []
  | d :: rest => (ALPHABET.get? d).bind fun ch => (emit rest).map fun cs => ch :: cs

/-- `<[u8] as ToBase58>::to_base58` (`src/lib.rs` lines 28-68).
`zcount` counts leading zero bytes, `size = (len - zcount) * 138 / 100 + 1`
is the work-buffer size, the buffer starts as `size` zeros and `high` as
`size - 1`; after the conversion the leading zero digits are skipped and the
output is `zcount` copies of `'1'` followed by the alphabet characters of
the remaining digits. -/
def toBase58 (b : List Nat) : Option String :=
  let zcount := (b.takeWhile (fun x => x == 0)).length
  let size := (b.length - zcount) * 138 / 100 + 1
  (processBytes size size (b.drop zcount) (List.replicate size 0) (size - 1)).bind
    fun r =>
      let j := (r.1.takeWhile (fun x => x == 0)).length
      (emit (r.1.drop j)).map fun digits =>
        String.mk (List.replicate zcount '1' ++ digits)

/-! ## Specification-side numeric functions -/

/-- The value of a byte list read as a base-256 big-endian unsigned integer. -/
def val256 : List Nat → Nat
  | [] => 0
  | d :: ds => d * 256 ^ ds.length + val256 ds

/-- The value of a digit list read as a base-58 big-endian integer. -/
def val58 : List Nat → Nat
  | [] => 0
  | d :: ds => d * 58 ^ ds.length + val58 ds

/-- Fuel-driven base-58 digit expansion, most significant digit first. -/
def digits58Aux : Nat → Nat → List Nat
  | 0, _ => []
  | _ + 1, 0 => []
  | fuel + 1, n + 1 => digits58Aux fuel ((n + 1) / 58) ++ [(n + 1) % 58]

/-- The minimal base-58 digit representation of `n`, most significant digit
first (`[]` for `0`, leading digit nonzero otherwise). -/
def digits58 (n : Nat) : List Nat :=
  digits58Aux n n

/-- The carry-propagation pass of one inner scan over the occupied digit
positions, processed least-significant (rightmost) first: returns the
outgoing carry and the updated digits. -/
def mulAdd256 : List Nat → Nat → Nat × List Nat
  | [], c => (c, [])
  | d :: ds, c =>
    let s := mulAdd256 ds c
    let t := s.1 + 256 * d
    (t / 58, t % 58 :: s.2)

/-! ## Lemmas about digit expansions and values -/

theorem digits58Aux_zero (fuel : Nat) : digits58Aux fuel 0 = [] := by
  cases fuel <;> rfl

theorem digits58Aux_irrel : ∀ n fuel fuel' : Nat, n ≤ fuel → n ≤ fuel' →
    digits58Aux fuel n = digits58Aux fuel' n := by
  intro n
  induction n using Nat.strong_induction_on with
  | _ n ih =>
    intro fuel fuel' h h'
    cases n with
    | zero => rw [digits58Aux_zero, digits58Aux_zero]
    | succ m =>
      cases fuel with
      | zero => omega
      | succ f =>
        cases fuel' with
        | zero => omega
        | succ f' =>
          have hdiv : (m + 1) / 58 ≤ m := by
            have := Nat.div_lt_self (Nat.succ_pos m) (by norm_num : (1:Nat) < 58)
            omega
          show digits58Aux f ((m + 1) / 58) ++ _ = digits58Aux f' ((m + 1) / 58) ++ _
          rw [ih ((m + 1) / 58) (by omega) f f' (by omega) (by omega)]

theorem digits58_succ (n : Nat) (h : 0 < n) :
    digits58 n = digits58 (n / 58) ++ [n % 58] := by
  obtain ⟨m, rfl⟩ : ∃ m, n = m + 1 := ⟨n - 1, by omega⟩
  have hdiv : (m + 1) / 58 ≤ m := by
    have := Nat.div_lt_self (Nat.succ_pos m) (by norm_num : (1:Nat) < 58)
    omega
  show digits58Aux m ((m + 1) / 58) ++ _ = _
  rw [digits58Aux_irrel ((m + 1) / 58) m ((m + 1) / 58) hdiv (Nat.le_refl _)]
  rfl

theorem val58_append_singleton (l : List Nat) (d : Nat) :
    val58 (l ++ [d]) = 58 * val58 l + d := by
  induction l with
  | nil => simp [val58]
  | cons x xs ih => simp [val58, ih]; ring

theorem val58_digits58 (n : Nat) : val58 (digits58 n) = n := by
  induction n using Nat.strong_induction_on with
  | _ n ih =>
    cases Nat.eq_zero_or_pos n with
    | inl h => subst h; rfl
    | inr h =>
      rw [digits58_succ n h, val58_append_singleton,
        ih (n / 58) (Nat.div_lt_self h (by norm_num))]
      exact Nat.div_add_mod n 58

theorem digits58_mem_lt (n : Nat) : ∀ d ∈ digits58 n, d < 58 := by
  induction n using Nat.strong_induction_on with
  | _ n ih =>
    cases Nat.eq_zero_or_pos n with
    | inl h => subst h; intro d hd; simp [digits58, digits58Aux] at hd
    | inr h =>
      rw [digits58_succ n h]
      intro d hd
      rcases List.mem_append.mp hd with h1 | h2
      · exact ih (n / 58) (Nat.div_lt_self h (by norm_num)) d h1
      · simp at h2; subst h2; exact Nat.mod_lt _ (by norm_num)

theorem digits58_cons_of_pos (n : Nat) (h : 0 < n) :
    ∃ d l, digits58 n = d :: l ∧ 0 < d := by
  induction n using Nat.strong_induction_on with
  | _ n ih =>
    rw [digits58_succ n h]
    rcases Nat.lt_or_ge n 58 with hlt | hge
    · refine ⟨n % 58, [], ?_, ?_⟩
      · rw [Nat.div_eq_of_lt hlt, digits58]; rfl
      · rw [Nat.mod_eq_of_lt hlt]; exact h
    · have hpos : 0 < n / 58 := Nat.div_pos hge (by norm_num)
      obtain ⟨d, l, hdl, hd⟩ := ih (n / 58) (Nat.div_lt_self h (by norm_num)) hpos
      exact ⟨d, l ++ [n % 58], by rw [hdl]; rfl, hd⟩

theorem digits58_length_le (n k : Nat) : (digits58 n).length ≤ k ↔ n < 58 ^ k := by
  induction n using Nat.strong_induction_on generalizing k with
  | _ n ih =>
    cases Nat.eq_zero_or_pos n with
    | inl h =>
      subst h
      have h0 : digits58 0 = [] := rfl
      rw [h0]
      constructor
      · intro _
        exact pow_pos (by norm_num) k
      · intro _
        simp
    | inr h =>
      rw [digits58_succ n h]
      cases k with
      | zero =>
        simp
        omega
      | succ k' =>
        have := ih (n / 58) (Nat.div_lt_self h (by norm_num)) k'
        simp only [List.length_append, List.length_cons, List.length_nil]
        constructor
        · intro hle
          have h1 : (digits58 (n / 58)).length ≤ k' := by omega
          have h2 := this.mp h1
          rw [pow_succ]
          exact (Nat.div_lt_iff_lt_mul (by norm_num)).mp h2
        · intro hlt
          have h2 : n / 58 < 58 ^ k' := by
            rw [pow_succ] at hlt
            exact (Nat.div_lt_iff_lt_mul (by norm_num)).mpr hlt
          have := this.mpr h2
          omega

theorem digits58_lt_base_pow (n : Nat) : n < 58 ^ (digits58 n).length :=
  (digits58_length_le n _).mp (Nat.le_refl _)

theorem digits58_length_mono (m n : Nat) (h : m ≤ n) :
    (digits58 m).length ≤ (digits58 n).length :=
  (digits58_length_le m _).mpr (lt_of_le_of_lt h (digits58_lt_base_pow n))

theorem val58_lt (D : List Nat) (hD : ∀ d ∈ D, d < 58) :
    val58 D < 58 ^ D.length := by
  induction D with
  | nil => simp [val58]
  | cons d ds ih =>
    have hd : d < 58 := hD d (List.mem_cons_self d ds)
    have hds := ih fun x hx => hD x (List.mem_cons_of_mem d hx)
    have h1 : val58 (d :: ds) < (d + 1) * 58 ^ ds.length := by
      show d * 58 ^ ds.length + val58 ds < _
      calc d * 58 ^ ds.length + val58 ds
          < d * 58 ^ ds.length + 58 ^ ds.length := by omega
        _ = (d + 1) * 58 ^ ds.length := by ring
    calc val58 (d :: ds) < (d + 1) * 58 ^ ds.length := h1
      _ ≤ 58 * 58 ^ ds.length := Nat.mul_le_mul_right _ (by omega)
      _ = 58 ^ (d :: ds).length := by rw [List.length_cons, pow_succ]; ring

theorem val58_head_ge (d : Nat) (l : List Nat) (hd : 0 < d) :
    58 ^ l.length ≤ val58 (d :: l) := by
  show 58 ^ l.length ≤ d * 58 ^ l.length + val58 l
  have : 1 * 58 ^ l.length ≤ d * 58 ^ l.length := Nat.mul_le_mul_right _ hd
  omega

theorem digits58_append_digits (K : Nat) (hK : 0 < K) :
    ∀ D : List Nat, (∀ d ∈ D, d < 58) →
      digits58 (K * 58 ^ D.length + val58 D) = digits58 K ++ D := by
  intro D
  induction D using List.reverseRecOn with
  | nil => simp [val58, digits58Aux]
  | append_singleton D₀ d ih =>
    intro hD
    have hd : d < 58 := hD d (by simp)
    have hD₀ : ∀ x ∈ D₀, x < 58 := fun x hx => hD x (by simp [hx])
    have hm : 0 < K * 58 ^ D₀.length + val58 D₀ := by
      have : 0 < 58 ^ D₀.length := pow_pos (by norm_num) _
      have : 1 * 1 ≤ K * 58 ^ D₀.length := Nat.mul_le_mul hK this
      omega
    set m := K * 58 ^ D₀.length + val58 D₀ with hm_def
    have hN : K * 58 ^ (D₀ ++ [d]).length + val58 (D₀ ++ [d]) = 58 * m + d := by
      rw [val58_append_singleton, List.length_append, List.length_cons,
        List.length_nil, pow_succ, hm_def]
      ring
    rw [hN, digits58_succ (58 * m + d) (by omega)]
    have hdiv : (58 * m + d) / 58 = m := by
      rw [Nat.mul_add_div (by norm_num), Nat.div_eq_of_lt hd]
      omega
    have hmod : (58 * m + d) % 58 = d := by
      rw [Nat.mul_add_mod, Nat.mod_eq_of_lt hd]
    rw [hdiv, hmod, ih hD₀]
    simp

/-! ## Base-256 value lemmas -/

theorem val256_append_singleton (l : List Nat) (c : Nat) :
    val256 (l ++ [c]) = 256 * val256 l + c := by
  induction l with
  | nil => simp [val256]
  | cons x xs ih => simp [val256, ih]; ring

theorem val256_lt (b : List Nat) (hb : ∀ x ∈ b, x < 256) :
    val256 b < 256 ^ b.length := by
  induction b with
  | nil => simp [val256]
  | cons d ds ih =>
    have hd : d < 256 := hb d (List.mem_cons_self d ds)
    have hds := ih fun x hx => hb x (List.mem_cons_of_mem d hx)
    show d * 256 ^ ds.length + val256 ds < 256 ^ (ds.length + 1)
    have h1 : d * 256 ^ ds.length + val256 ds < (d + 1) * 256 ^ ds.length := by
      have : (d + 1) * 256 ^ ds.length = d * 256 ^ ds.length + 256 ^ ds.length := by ring
      omega
    have h2 : (d + 1) * 256 ^ ds.length ≤ 256 * 256 ^ ds.length :=
      Nat.mul_le_mul_right _ (by omega)
    rw [pow_succ]
    calc d * 256 ^ ds.length + val256 ds < (d + 1) * 256 ^ ds.length := h1
      _ ≤ 256 * 256 ^ ds.length := h2
      _ = 256 ^ ds.length * 256 := by ring

theorem val256_replicate_zero_append (k : Nat) (l : List Nat) :
    val256 (List.replicate k 0 ++ l) = val256 l := by
  induction k with
  | zero => rfl
  | succ n ih => simpa [val256] using ih

theorem val256_cons_pos (d : Nat) (l : List Nat) (hd : 0 < d) :
    0 < val256 (d :: l) := by
  show 0 < d * 256 ^ l.length + val256 l
  have : 0 < 256 ^ l.length := pow_pos (by norm_num) _
  have : 1 * 1 ≤ d * 256 ^ l.length := Nat.mul_le_mul hd this
  omega

/-! ## Carry-propagation pass lemmas -/

theorem mulAdd256_length (D : List Nat) (c : Nat) :
    (mulAdd256 D c).2.length = D.length := by
  induction D with
  | nil => rfl
  | cons d ds ih => simp [mulAdd256, ih]

theorem mulAdd256_mem_lt (D : List Nat) (c : Nat) :
    ∀ d ∈ (mulAdd256 D c).2, d < 58 := by
  induction D with
  | nil => intro d hd; simp [mulAdd256] at hd
  | cons x xs ih =>
    intro d hd
    simp only [mulAdd256, List.mem_cons] at hd
    rcases hd with h | h
    · subst h; exact Nat.mod_lt _ (by norm_num)
    · exact ih d h

theorem mulAdd256_val (D : List Nat) (c : Nat) :
    (mulAdd256 D c).1 * 58 ^ D.length + val58 (mulAdd256 D c).2
      = 256 * val58 D + c := by
  induction D with
  | nil => simp [mulAdd256, val58]
  | cons d ds ih =>
    have hlen := mulAdd256_length ds c
    set s := mulAdd256 ds c with hs
    set t := s.1 + 256 * d with ht
    show (t / 58) * 58 ^ (d :: ds).length + val58 (t % 58 :: s.2)
        = 256 * val58 (d :: ds) + c
    have hmod : Nat.mod t 58 < 58 := Nat.mod_lt _ (by norm_num)
    have hdm : 58 * (t / 58) + t % 58 = t := Nat.div_add_mod t 58
    calc (t / 58) * 58 ^ (d :: ds).length + val58 (t % 58 :: s.2)
        = (t / 58) * (58 ^ ds.length * 58) + ((t % 58) * 58 ^ s.2.length + val58 s.2) := by
          rw [List.length_cons, pow_succ]; rfl
      _ = (58 * (t / 58) + t % 58) * 58 ^ ds.length + val58 s.2 := by
          rw [hlen]; ring
      _ = t * 58 ^ ds.length + val58 s.2 := by rw [hdm]
      _ = 256 * d * 58 ^ ds.length + (s.1 * 58 ^ ds.length + val58 s.2) := by
          rw [ht]; ring
      _ = 256 * d * 58 ^ ds.length + (256 * val58 ds + c) := by rw [ih]
      _ = 256 * val58 (d :: ds) + c := by show _ = 256 * (d * 58 ^ ds.length + val58 ds) + c; ring

theorem mulAdd256_append (D₀ : List Nat) (d c : Nat) :
    mulAdd256 (D₀ ++ [d]) c
      = ((mulAdd256 D₀ ((c + 256 * d) / 58)).1,
         (mulAdd256 D₀ ((c + 256 * d) / 58)).2 ++ [(c + 256 * d) % 58]) := by
  induction D₀ with
  | nil => simp [mulAdd256]
  | cons x xs ih => simp [mulAdd256, ih]

/-! ## List index helpers -/

theorem get?_append_cons (A : List Nat) (b : Nat) (C : List Nat) :
    (A ++ b :: C).get? A.length = some b := by
  rw [List.get?_eq_getElem?, List.getElem?_append_right (Nat.le_refl _)]
  simp

theorem set_append_cons (A : List Nat) (b v : Nat) (C : List Nat) :
    (A ++ b :: C).set A.length v = A ++ v :: C := by
  induction A with
  | nil => rfl
  | cons x xs ih => simp [List.set, ih]

theorem replicate_append_cons (n : Nat) (E : List Nat) :
    List.replicate (n + 1) 0 ++ E = List.replicate n 0 ++ 0 :: E := by
  rw [List.replicate_succ']
  simp

/-! ## Small-step equations for the inner loop -/

theorem innerBody_fst (buffer : List Nat) (j bj carry : Nat) :
    (innerBody buffer j bj carry).1 = buffer.set j ((carry + 256 * bj) % 58) := rfl

theorem innerBody_j (buffer : List Nat) (j bj carry : Nat) :
    (innerBody buffer j bj carry).2.1 = if 0 < j then j - 1 else j := rfl

theorem innerBody_carry (buffer : List Nat) (j bj carry : Nat) :
    (innerBody buffer j bj carry).2.2 = (carry + 256 * bj) / 58 := rfl

theorem innerLoop_stop (fuel : Nat) (buffer : List Nat) (j high carry : Nat)
    (h : ¬(high < j ∨ carry ≠ 0)) :
    innerLoop fuel buffer j high carry = some (buffer, j) := by
  rw [innerLoop.eq_def, if_neg h]

theorem innerLoop_step (fuel : Nat) (buffer : List Nat) (j high carry bj : Nat)
    (hcond : high < j ∨ carry ≠ 0) (hget : buffer.get? j = some bj) :
    innerLoop (fuel + 1) buffer j high carry
      = innerLoop fuel (buffer.set j ((carry + 256 * bj) % 58))
          (if 0 < j then j - 1 else j) high ((carry + 256 * bj) / 58) := by
  conv_lhs => rw [innerLoop.eq_def]
  rw [if_pos hcond, hget]
  rfl

/-- Phase A of one inner scan: while `j > high` the loop unconditionally
processes the occupied digit positions (the suffix `D` of the buffer), which
is exactly the carry-propagation pass `mulAdd256 D c`. -/
theorem innerLoop_scan (h : Nat) (D : List Nat) :
    ∀ E c fuel, D.length ≤ fuel →
      innerLoop fuel (List.replicate (h + 1) 0 ++ D ++ E) (h + D.length) h c
        = innerLoop (fuel - D.length)
            (List.replicate (h + 1) 0 ++ (mulAdd256 D c).2 ++ E) h h (mulAdd256 D c).1 := by
  induction D using List.reverseRecOn with
  | nil => intro E c fuel _; simp [mulAdd256]
  | append_singleton D₀ d ih =>
    intro E c fuel hfuel
    simp only [List.length_append, List.length_cons, List.length_nil] at hfuel
    obtain ⟨f, rfl⟩ : ∃ f, fuel = f + 1 := ⟨fuel - 1, by omega⟩
    have hA : List.replicate (h + 1) 0 ++ (D₀ ++ [d]) ++ E
        = (List.replicate (h + 1) 0 ++ D₀) ++ d :: E := by simp
    have hAlen : (List.replicate (h + 1) 0 ++ D₀).length = h + 1 + D₀.length := by simp
    have hj : h + (D₀ ++ [d]).length = (List.replicate (h + 1) 0 ++ D₀).length := by
      simp; omega
    rw [hA, hj]
    have hget := get?_append_cons (List.replicate (h + 1) 0 ++ D₀) d E
    have hcond : h < (List.replicate (h + 1) 0 ++ D₀).length ∨ c ≠ 0 :=
      Or.inl (by omega)
    rw [innerLoop_step f _ _ h c d hcond hget, set_append_cons]
    have hjpos : (0 : Nat) < (List.replicate (h + 1) 0 ++ D₀).length := by omega
    rw [if_pos hjpos]
    have hj' : (List.replicate (h + 1) 0 ++ D₀).length - 1 = h + D₀.length := by omega
    have hbuf : (List.replicate (h + 1) 0 ++ D₀) ++ (c + 256 * d) % 58 :: E
        = List.replicate (h + 1) 0 ++ D₀ ++ ((c + 256 * d) % 58 :: E) := by simp
    rw [hj', hbuf, ih ((c + 256 * d) % 58 :: E) ((c + 256 * d) / 58) f (by omega)]
    rw [mulAdd256_append]
    dsimp only
    have hfa : f + 1 - (D₀ ++ [d]).length = f - D₀.length := by simp
    rw [hfa]
    congr 1
    simp

/-- Phase B of one inner scan: with `j ≤ high` and the first `j + 1` buffer
positions still zero, the loop writes the base-58 digits of the remaining
carry and stops, clamping `j` at `0` exactly when the digits fill the
remaining space. -/
theorem innerLoop_fresh :
    ∀ j high : Nat, ∀ E : List Nat, ∀ carry fuel : Nat,
      j ≤ high → carry < 58 ^ (j + 1) → j + 1 ≤ fuel →
      innerLoop fuel (List.replicate (j + 1) 0 ++ E) j high carry
        = some (List.replicate (j + 1 - (digits58 carry).length) 0 ++ digits58 carry ++ E,
            if (digits58 carry).length = j + 1 then 0 else j - (digits58 carry).length) := by
  intro j
  induction j with
  | zero =>
    intro high E carry fuel _ hcarry hfuel
    rcases Nat.eq_zero_or_pos carry with hc | hc
    · subst hc
      rw [innerLoop_stop _ _ _ _ _ (by omega)]
      simp [digits58, digits58Aux]
    · obtain ⟨f, rfl⟩ : ∃ f, fuel = f + 1 := ⟨fuel - 1, by omega⟩
      have hbuf : List.replicate 1 0 ++ E = 0 :: E := by simp
      have hget : (0 :: E).get? 0 = some 0 := rfl
      rw [hbuf, innerLoop_step f (0 :: E) 0 high carry 0 (Or.inr (by omega)) hget]
      have hset : (0 :: E).set 0 ((carry + 256 * 0) % 58) = (carry + 256 * 0) % 58 :: E := rfl
      rw [hset]
      simp only [Nat.lt_irrefl, if_false]
      have hc58 : carry < 58 := by simpa using hcarry
      have hcm : (carry + 256 * 0) % 58 = carry := by
        simp [Nat.mod_eq_of_lt hc58]
      have hcd : (carry + 256 * 0) / 58 = 0 := by
        simp [Nat.div_eq_of_lt hc58]
      rw [hcm, hcd, innerLoop_stop _ _ _ _ _ (by omega)]
      have hdig : digits58 carry = [carry] := by
        rw [digits58_succ carry hc, Nat.div_eq_of_lt hc58, Nat.mod_eq_of_lt hc58]
        rfl
      rw [hdig]
      simp
  | succ j ih =>
    intro high E carry fuel hhigh hcarry hfuel
    rcases Nat.eq_zero_or_pos carry with hc | hc
    · subst hc
      rw [innerLoop_stop _ _ _ _ _ (by omega)]
      simp [digits58, digits58Aux]
    · obtain ⟨f, rfl⟩ : ∃ f, fuel = f + 1 := ⟨fuel - 1, by omega⟩
      rw [replicate_append_cons (j + 1) E]
      have hlen : (List.replicate (j + 1) 0).length = j + 1 := by simp
      have hget : (List.replicate (j + 1) 0 ++ 0 :: E).get? (j + 1) = some 0 := by
        have := get?_append_cons (List.replicate (j + 1) 0) 0 E
        rwa [hlen] at this
      have hset : (List.replicate (j + 1) 0 ++ 0 :: E).set (j + 1) ((carry + 256 * 0) % 58)
          = List.replicate (j + 1) 0 ++ (carry + 256 * 0) % 58 :: E := by
        have := set_append_cons (List.replicate (j + 1) 0) 0 ((carry + 256 * 0) % 58) E
        rwa [hlen] at this
      rw [innerLoop_step f _ (j + 1) high carry 0 (Or.inr (by omega)) hget, hset]
      rw [if_pos (by omega : (0:Nat) < j + 1)]
      have hcm : carry + 256 * 0 = carry := by ring
      rw [hcm]
      have hstep : List.replicate (j + 1) 0 ++ carry % 58 :: E
          = List.replicate (j + 1) 0 ++ (carry % 58 :: E) := rfl
      have hdivlt : carry / 58 < 58 ^ (j + 1) := by
        have h2 : carry < 58 * 58 ^ (j + 1) := by
          rw [pow_succ, Nat.mul_comm] at hcarry
          exact hcarry
        exact Nat.div_lt_of_lt_mul h2
      have := ih high (carry % 58 :: E) (carry / 58) f (by omega) hdivlt (by omega)
      rw [show j + 1 - 1 = j from rfl, this]
      have hdig := digits58_succ carry hc
      set t := (digits58 (carry / 58)).length with ht_def
      have htlen : (digits58 carry).length = t + 1 := by
        rw [hdig]; simp
      have hbufeq : List.replicate (j + 1 - t) 0 ++ digits58 (carry / 58) ++ (carry % 58 :: E)
          = List.replicate (j + 1 + 1 - (digits58 carry).length) 0 ++ digits58 carry ++ E := by
        rw [htlen, hdig]
        have : j + 1 + 1 - (t + 1) = j + 1 - t := by omega
        rw [this]
        simp
      rw [hbufeq]
      simp only [Option.some.injEq, Prod.mk.injEq]
      refine ⟨trivial, ?_⟩
      rw [htlen]
      rcases eq_or_ne t (j + 1) with he | hne
      · rw [if_pos (by omega), if_pos (by omega)]
      · rw [if_neg hne, if_neg (by omega)]
        omega

/-- Full specification of one inner scan: starting from a buffer whose
suffix holds the minimal digit representation `D` and whose first
`high + 1` positions are zero, processing a byte `c` rewrites the buffer to
the minimal digit representation of `256 * val58 D + c` (provided that
value fits in the buffer) and leaves `j` just above the new digits,
clamped at `0` when they fill the whole buffer. -/
theorem innerLoop_spec (size high : Nat) (D : List Nat) (c fuel : Nat)
    (hsize : high + 1 + D.length = size)
    (hmin : D = [] ∨ ∃ d l, D = d :: l ∧ 0 < d)
    (hD : ∀ d ∈ D, d < 58)
    (hW : 256 * val58 D + c < 58 ^ size)
    (hfuel : size ≤ fuel) :
    innerLoop fuel (List.replicate (high + 1) 0 ++ D) (size - 1) high c
      = some (List.replicate (size - (digits58 (256 * val58 D + c)).length) 0
                ++ digits58 (256 * val58 D + c),
          if (digits58 (256 * val58 D + c)).length = size then 0
          else size - 1 - (digits58 (256 * val58 D + c)).length) := by
  rcases hmin with rfl | ⟨d, l, rfl, hd⟩
  · -- no digits yet: the scan is pure carry propagation into the zeros
    simp only [List.length_nil, Nat.add_zero] at hsize
    subst hsize
    have hc : c < 58 ^ (high + 1) := by simpa [val58] using hW
    have h1 : high + 1 - 1 = high := by omega
    have h2 : List.replicate (high + 1) 0 ++ ([] : List Nat)
        = List.replicate (high + 1) 0 ++ ([] : List Nat) := rfl
    rw [h1, innerLoop_fresh high high [] c fuel (Nat.le_refl _) hc hfuel]
    simp [val58]
  · -- scan the occupied digits, then propagate the outgoing carry
    have hlen : (d :: l).length = l.length + 1 := rfl
    have hj : size - 1 = high + (d :: l).length := by omega
    have hfuel1 : (d :: l).length ≤ fuel := by omega
    have happ : List.replicate (high + 1) 0 ++ (d :: l)
        = List.replicate (high + 1) 0 ++ (d :: l) ++ [] := by simp
    rw [hj, happ, innerLoop_scan high (d :: l) [] c fuel hfuel1]
    have hval := mulAdd256_val (d :: l) c
    have hKlen := mulAdd256_length (d :: l) c
    have hKmem := mulAdd256_mem_lt (d :: l) c
    set K := mulAdd256 (d :: l) c with hK
    set W := 256 * val58 (d :: l) + c with hW_def
    have hW_ge : 58 ^ (d :: l).length ≤ W := by
      have h1 : 58 ^ l.length ≤ val58 (d :: l) := val58_head_ge d l hd
      have h2 : 256 * 58 ^ l.length ≤ 256 * val58 (d :: l) :=
        Nat.mul_le_mul_left _ h1
      have h3 : 58 ^ (d :: l).length = 58 * 58 ^ l.length := by
        rw [hlen, pow_succ]; ring
      have h4 : 58 * 58 ^ l.length ≤ 256 * 58 ^ l.length :=
        Nat.mul_le_mul_right _ (by norm_num)
      omega
    have hK1 : 0 < K.1 := by
      rcases Nat.eq_zero_or_pos K.1 with h0 | h1
      · exfalso
        have hlt : val58 K.2 < 58 ^ (d :: l).length := by
          have := val58_lt K.2 hKmem
          rwa [hKlen] at this
        rw [h0, Nat.zero_mul, Nat.zero_add] at hval
        omega
      · exact h1
    have hK1lt : K.1 < 58 ^ (high + 1) := by
      have h1 : K.1 * 58 ^ (d :: l).length ≤ W := by
        rw [← hval]
        exact Nat.le_add_right _ _
      have h2 : (58 : Nat) ^ size = 58 ^ (high + 1) * 58 ^ (d :: l).length := by
        rw [← pow_add]
        congr 1
        omega
      have h3 : K.1 * 58 ^ (d :: l).length < 58 ^ (high + 1) * 58 ^ (d :: l).length :=
        lt_of_le_of_lt h1 (by rw [← h2]; exact hW)
      exact Nat.lt_of_mul_lt_mul_right h3
    have hfuel2 : high + 1 ≤ fuel - (d :: l).length := by omega
    have hnorm : List.replicate (high + 1) 0 ++ K.2 ++ ([] : List Nat)
        = List.replicate (high + 1) 0 ++ K.2 := by simp
    rw [hnorm, innerLoop_fresh high high K.2 K.1 (fuel - (d :: l).length) (Nat.le_refl _)
      hK1lt hfuel2]
    have hdig : digits58 W = digits58 K.1 ++ K.2 := by
      have := digits58_append_digits K.1 hK1 K.2 hKmem
      rw [hKlen] at this
      rw [← this]
      congr 1
      omega
    set tK := (digits58 K.1).length with htK
    have htW : (digits58 W).length = tK + (d :: l).length := by
      rw [hdig]
      simp [hKlen]
    have htK_le : tK ≤ high + 1 := (digits58_length_le K.1 (high + 1)).mpr hK1lt
    have hbufeq : List.replicate (high + 1 - tK) 0 ++ digits58 K.1 ++ K.2
        = List.replicate (size - (digits58 W).length) 0 ++ digits58 W := by
      rw [htW, hdig]
      have : size - (tK + (d :: l).length) = high + 1 - tK := by omega
      rw [this]
      simp
    rw [hbufeq]
    simp only [Option.some.injEq, Prod.mk.injEq]
    refine ⟨trivial, ?_⟩
    rw [htW]
    rcases eq_or_ne tK (high + 1) with he | hne
    · rw [if_pos (by omega), if_pos (by omega)]
    · rw [if_neg hne, if_neg (by omega)]
      omega

/-- Invariant of the outer loop: if the buffer holds the minimal digit
representation of `V` (zero-padded to `size`) and the final value
`V * 256 ^ bs.length + val256 bs` fits in `58 ^ size`, then processing the
remaining bytes `bs` succeeds and leaves the buffer holding the minimal
digit representation of the final value. -/
theorem processBytes_spec (size : Nat) (hsize : 0 < size) :
    ∀ bs : List Nat, ∀ V fuel : Nat,
      (∀ x ∈ bs, x < 256) →
      V * 256 ^ bs.length + val256 bs < 58 ^ size →
      size ≤ fuel →
      ∃ h', processBytes fuel size bs
          (List.replicate (size - (digits58 V).length) 0 ++ digits58 V)
          (if (digits58 V).length = size then 0 else size - 1 - (digits58 V).length)
        = some (List.replicate
                  (size - (digits58 (V * 256 ^ bs.length + val256 bs)).length) 0
                ++ digits58 (V * 256 ^ bs.length + val256 bs), h') := by
  intro bs
  induction bs with
  | nil =>
    intro V fuel _ _ _
    refine ⟨if (digits58 V).length = size then 0
      else size - 1 - (digits58 V).length, ?_⟩
    simp [processBytes, val256]
  | cons c rest ih =>
    intro V fuel hb hbound hfuel
    have hrest : ∀ x ∈ rest, x < 256 := fun x hx => hb x (List.mem_cons_of_mem c hx)
    have hb1 : V * 256 ^ (c :: rest).length + val256 (c :: rest)
        = (256 * V + c) * 256 ^ rest.length + val256 rest := by
      simp only [val256, List.length_cons, pow_succ]
      ring
    rw [hb1] at hbound
    have hW1size : 256 * V + c < 58 ^ size := by
      have h1 : 256 * V + c ≤ (256 * V + c) * 256 ^ rest.length :=
        Nat.le_mul_of_pos_right _ (pow_pos (by norm_num) _)
      omega
    have hpow : (58 : Nat) ^ size = 58 * 58 ^ (size - 1) := by
      have h1 : size - 1 + 1 = size := by omega
      conv_lhs => rw [← h1]
      rw [pow_succ]
      ring
    have hV58 : V < 58 ^ (size - 1) := by
      have h1 : 58 * V < 58 * 58 ^ (size - 1) := by omega
      exact Nat.lt_of_mul_lt_mul_left h1
    have htV : (digits58 V).length ≤ size - 1 := (digits58_length_le _ _).mpr hV58
    obtain ⟨h', hIH⟩ := ih (256 * V + c) fuel hrest hbound hfuel
    refine ⟨h', ?_⟩
    rw [hb1]
    simp only [processBytes]
    rw [if_neg (by omega : ¬(digits58 V).length = size)]
    rw [show size - (digits58 V).length = size - 1 - (digits58 V).length + 1 from by omega]
    have hspec := innerLoop_spec size (size - 1 - (digits58 V).length) (digits58 V) c fuel
      (by omega)
      (by
        rcases Nat.eq_zero_or_pos V with h0 | hVpos
        · subst h0; exact Or.inl rfl
        · exact Or.inr (digits58_cons_of_pos V hVpos))
      (digits58_mem_lt V)
      (by rw [val58_digits58]; exact hW1size)
      hfuel
    rw [val58_digits58] at hspec
    rw [hspec]
    simp only [Option.some_bind]
    exact hIH

/-! ## The work-buffer size bound -/

theorem pow_bound_base : (256 : Nat) ^ 100 ≤ 58 ^ 138 := by decide

theorem pow_bound_r : ∀ r < 100, (256 : Nat) ^ r ≤ 58 ^ (r * 138 / 100 + 1) := by decide

/-- `(len * 138 / 100) + 1` base-58 digits always suffice for `len` bytes:
the fixed-point approximation `138/100` of `log 256 / log 58` is an
overestimate, integer division included. -/
theorem pow256_le_pow58 (n : Nat) : 256 ^ n ≤ 58 ^ (n * 138 / 100 + 1) := by
  have hq := (Nat.div_add_mod n 100).symm
  set q := n / 100 with hq_def
  set r := n % 100 with hr_def
  have hr : r < 100 := Nat.mod_lt _ (by norm_num)
  have hdiv : n * 138 / 100 = 138 * q + r * 138 / 100 := by
    conv_lhs => rw [hq]
    have h1 : (100 * q + r) * 138 = 100 * (138 * q) + r * 138 := by ring
    rw [h1, Nat.mul_add_div (by norm_num)]
  calc 256 ^ n = (256 ^ 100) ^ q * 256 ^ r := by
        conv_lhs => rw [hq]
        rw [pow_add, pow_mul]
    _ ≤ (58 ^ 138) ^ q * 58 ^ (r * 138 / 100 + 1) :=
        Nat.mul_le_mul (Nat.pow_le_pow_left pow_bound_base q) (pow_bound_r r hr)
    _ = 58 ^ (138 * q + (r * 138 / 100 + 1)) := by
        rw [← pow_mul, ← pow_add]
    _ = 58 ^ (n * 138 / 100 + 1) := by
        rw [hdiv]
        ring_nf

/-! ## Leading-zero bookkeeping -/

theorem takeWhile_zeros_replicate (l : List Nat) :
    l.takeWhile (fun x => x == 0)
      = List.replicate (l.takeWhile (fun x => x == 0)).length 0 := by
  rw [List.eq_replicate_iff]
  refine ⟨rfl, ?_⟩
  intro x hx
  have := List.mem_takeWhile_imp hx
  simpa using this

theorem drop_takeWhile_length (l : List Nat) :
    l.drop (l.takeWhile (fun x => x == 0)).length = l.dropWhile (fun x => x == 0) := by
  induction l with
  | nil => rfl
  | cons x xs ih =>
    cases h : (fun x : Nat => x == 0) x <;>
      simp [List.takeWhile_cons, List.dropWhile_cons, h, ih]

theorem dropWhile_zero_head (l : List Nat) (d : Nat) (t : List Nat)
    (h : l.dropWhile (fun x => x == 0) = d :: t) : d ≠ 0 := by
  have := List.head?_dropWhile_not (fun x => x == 0) l
  rw [h] at this
  simpa using this

theorem takeWhile_zeros_replicate_append (k : Nat) (D : List Nat) :
    (List.replicate k 0 ++ D).takeWhile (fun x => x == 0)
      = List.replicate k 0 ++ D.takeWhile (fun x => x == 0) := by
  induction k with
  | zero => simp
  | succ n ih => simp [List.replicate_succ, List.takeWhile_cons, ih]

/-! ## The output pass -/

theorem ALPHABET_length : ALPHABET.length = 58 := rfl

theorem emit_eq_map (l : List Nat) (hl : ∀ d ∈ l, d < 58) :
    emit l = some (l.map fun d => ALPHABET.getD d '1') := by
  induction l with
  | nil => rfl
  | cons d ds ih =>
    have hd : d < ALPHABET.length := by
      rw [ALPHABET_length]
      exact hl d (List.mem_cons_self d ds)
    have hget : ALPHABET.get? d = some (ALPHABET.getD d '1') := by
      rw [List.getD_eq_getElem?_getD, List.get?_eq_getElem?, List.getElem?_eq_getElem hd]
      rfl
    show (ALPHABET.get? d).bind _ = _
    rw [hget, ih fun x hx => hl x (List.mem_cons_of_mem d hx)]
    rfl

/-! ## The master correctness theorem -/

/-- The full behaviour of `to_base58` on actual byte inputs: it terminates
within the given fuel with no out-of-bounds access and returns one `'1'`
per leading zero byte followed by the minimal base-58 digits of the input
value, rendered through the alphabet. -/
theorem toBase58_correct (b : List Nat) (hb : ∀ x ∈ b, x < 256) :
    toBase58 b
      = some (String.mk
          (List.replicate (b.takeWhile (fun x => x == 0)).length '1'
            ++ (digits58 (val256 b)).map fun d => ALPHABET.getD d '1')) := by
  set zc := (b.takeWhile (fun x => x == 0)).length with hzc
  set b' := b.dropWhile (fun x => x == 0) with hb'
  have hsplit : List.replicate zc 0 ++ b' = b := by
    rw [hzc, hb', ← takeWhile_zeros_replicate]
    exact List.takeWhile_append_dropWhile (fun x => x == 0) b
  have hdrop : b.drop zc = b' := drop_takeWhile_length b
  have hlen : b.length = zc + b'.length := by
    conv_lhs => rw [← hsplit]
    simp
  have hval : val256 b = val256 b' := by
    conv_lhs => rw [← hsplit]
    exact val256_replicate_zero_append zc b'
  set size := (b.length - zc) * 138 / 100 + 1 with hsize_def
  have hsize_pos : 0 < size := Nat.succ_pos _
  have hsize_eq : size = b'.length * 138 / 100 + 1 := by
    rw [hsize_def]
    congr 2
    omega
  have hb'256 : ∀ x ∈ b', x < 256 := fun x hx =>
    hb x ((List.dropWhile_sublist _).subset hx)
  have hbound : (0 : Nat) * 256 ^ b'.length + val256 b' < 58 ^ size := by
    have h1 : val256 b' < 256 ^ b'.length := val256_lt b' hb'256
    have h2 : (256 : Nat) ^ b'.length ≤ 58 ^ (b'.length * 138 / 100 + 1) :=
      pow256_le_pow58 _
    rw [hsize_eq]
    omega
  obtain ⟨h', hPB⟩ := processBytes_spec size hsize_pos b' 0 size hb'256 hbound
    (Nat.le_refl _)
  have hd0 : digits58 (0 : Nat) = [] := rfl
  rw [hd0] at hPB
  simp only [List.length_nil, Nat.sub_zero, List.append_nil, Nat.zero_mul,
    Nat.zero_add] at hPB
  rw [if_neg (by omega : ¬(0 : Nat) = size)] at hPB
  rw [toBase58]
  simp only
  rw [← hzc, ← hsize_def, hdrop, hPB]
  simp only [Option.some_bind]
  set W := val256 b' with hW_def
  set t := (digits58 W).length with ht_def
  rcases Nat.eq_zero_or_pos W with hW0 | hWpos
  · rw [hW0] at ht_def ⊢
    have ht0 : t = 0 := by rw [ht_def]; rfl
    rw [ht0, hd0]
    simp only [List.append_nil, Nat.sub_zero]
    have htake : ((List.replicate size 0).takeWhile (fun x => x == 0)).length = size := by
      have := takeWhile_zeros_replicate_append size ([] : List Nat)
      simp only [List.append_nil] at this
      rw [this]
      simp
    rw [htake]
    have hdropall : (List.replicate size (0 : Nat)).drop size = [] := by
      apply List.drop_eq_nil_of_le
      simp
    rw [hdropall]
    have hemit : emit [] = some [] := rfl
    rw [hemit]
    simp only [Option.map_some']
    rw [hval, hW0, hd0]
    simp
  · obtain ⟨d, tl, hdtl, hdpos⟩ := digits58_cons_of_pos W hWpos
    rw [hdtl]
    have htake : ((List.replicate (size - t) 0 ++ d :: tl).takeWhile
        (fun x => x == 0)).length = size - t := by
      rw [takeWhile_zeros_replicate_append]
      have hdf : (d == 0) = false := by
        simp only [beq_eq_false_iff_ne, ne_eq]
        omega
      have hhd : ((d :: tl).takeWhile (fun x => x == 0)) = [] := by
        simp [List.takeWhile_cons, hdf]
      rw [hhd]
      simp
    rw [htake]
    have hdropres : (List.replicate (size - t) (0 : Nat) ++ d :: tl).drop (size - t)
        = d :: tl := by
      have := List.drop_left (List.replicate (size - t) (0 : Nat)) (d :: tl)
      rwa [List.length_replicate] at this
    rw [hdropres]
    have hmem : ∀ x ∈ d :: tl, x < 58 := by
      rw [← hdtl]
      exact digits58_mem_lt W
    rw [emit_eq_map (d :: tl) hmem]
    simp only [Option.map_some']
    rw [hval, hdtl]

/-! ## Further helpers for the claims -/

theorem takeWhile_length_append_singleton (l : List Nat) (c : Nat)
    (hc : (c == 0) = false) :
    ((l ++ [c]).takeWhile (fun x => x == 0)).length
      = (l.takeWhile (fun x => x == 0)).length := by
  induction l with
  | nil => simp [List.takeWhile_cons, hc]
  | cons x xs ih =>
    cases h : (x == 0) <;> simp [List.takeWhile_cons, h, ih]

theorem alphabet_getD_ne_one : ∀ k < 58, k ≠ 0 → ALPHABET.getD k '1' ≠ '1' := by
  decide

theorem val256_lt_pow58 (b : List Nat) (hb : ∀ x ∈ b, x < 256) :
    val256 b
      < 58 ^ ((b.length - (b.takeWhile (fun x => x == 0)).length) * 138 / 100 + 1) := by
  set zc := (b.takeWhile (fun x => x == 0)).length with hzc
  set b' := b.dropWhile (fun x => x == 0) with hb'
  have hsplit : List.replicate zc 0 ++ b' = b := by
    rw [hzc, hb', ← takeWhile_zeros_replicate]
    exact List.takeWhile_append_dropWhile (fun x => x == 0) b
  have hlen : b.length = zc + b'.length := by
    conv_lhs => rw [← hsplit]
    simp
  have hval : val256 b = val256 b' := by
    conv_lhs => rw [← hsplit]
    exact val256_replicate_zero_append zc b'
  have hb'256 : ∀ x ∈ b', x < 256 := fun x hx =>
    hb x ((List.dropWhile_sublist _).subset hx)
  have h1 : val256 b' < 256 ^ b'.length := val256_lt b' hb'256
  have h2 := pow256_le_pow58 b'.length
  have h3 : b.length - zc = b'.length := by omega
  rw [hval, h3]
  omega

/-! ## The claims -/

/-- Claim C1: for every byte sequence `b`, `to_base58 b` succeeds and equals
`zcount` copies of `'1'` (one per leading zero byte) followed by the minimal
base-58 representation, most significant digit first with no leading zero
digit, of `b` read as a base-256 big-endian integer, each digit rendered
through the alphabet. -/
theorem c1_to_base58_spec (b : List Nat) (hb : ∀ x ∈ b, x < 256) :
    toBase58 b
      = some (String.mk
          (List.replicate (b.takeWhile (fun x => x == 0)).length '1'
            ++ (digits58 (val256 b)).map fun d => ALPHABET.getD d '1')) :=
  toBase58_correct b hb

/-- Concrete instantiation of claim C1 at the input `[45, 49]`. -/
theorem c1_to_base58_spec_witness :
    (∀ x ∈ [45, 49], x < 256) ∧
      toBase58 [45, 49]
        = some (String.mk
            (List.replicate ([45, 49].takeWhile (fun x => x == 0)).length '1'
              ++ (digits58 (val256 [45, 49])).map fun d => ALPHABET.getD d '1')) :=
  ⟨by decide, c1_to_base58_spec [45, 49] (by decide)⟩

/-- Claim C2: `to_base58` reproduces the specified test vectors. -/
theorem c2_known_vectors :
    toBase58 [45, 49] = some "4SU" ∧
    toBase58 [49, 49] = some "4k8" ∧
    toBase58 [97, 98, 99] = some "ZiCa" ∧
    toBase58 [97, 98, 99, 100, 101, 102, 103, 104, 105, 106, 107, 108, 109,
        110, 111, 112, 113, 114, 115, 116, 117, 118, 119, 120, 121, 122]
      = some "3yxU3u1igY8WkgtjK92fbJQCd4BZiiT1v25f" := by
  refine ⟨rfl, rfl, rfl, ?_⟩
  rw [toBase58_correct _ (by decide)]
  rfl

/-- Claim C3: prepending `k` zero bytes to an input without a leading zero
byte (or empty) prepends exactly `k` characters `'1'` to the encoding. -/
theorem c3_leading_zero_prepend (k : Nat) (b : List Nat)
    (hb : ∀ x ∈ b, x < 256)
    (hhead : b = [] ∨ ∃ d t, b = d :: t ∧ d ≠ 0) :
    ∃ s, toBase58 b = some s ∧
      toBase58 (List.replicate k 0 ++ b)
        = some (String.mk (List.replicate k '1' ++ s.data)) := by
  have hzcb : (b.takeWhile (fun x => x == 0)).length = 0 := by
    rcases hhead with rfl | ⟨d, t, rfl, hd⟩
    · rfl
    · have hdf : (d == 0) = false := by
        simp only [beq_eq_false_iff_ne, ne_eq]
        exact hd
      simp [List.takeWhile_cons, hdf]
  have h1 := toBase58_correct b hb
  have hball : ∀ x ∈ List.replicate k 0 ++ b, x < 256 := by
    intro x hx
    rcases List.mem_append.mp hx with h | h
    · have := List.eq_of_mem_replicate h
      omega
    · exact hb x h
  have h2 := toBase58_correct (List.replicate k 0 ++ b) hball
  have hzc2 : ((List.replicate k 0 ++ b).takeWhile (fun x => x == 0)).length = k := by
    rw [takeWhile_zeros_replicate_append, List.length_append, List.length_replicate,
      hzcb]
    omega
  have hv : val256 (List.replicate k 0 ++ b) = val256 b :=
    val256_replicate_zero_append k b
  refine ⟨_, h1, ?_⟩
  rw [h2, hzc2, hv, hzcb]
  rfl

/-- Concrete instantiation of claim C3 at `k = 2`, `b = [97, 98, 99]`. -/
theorem c3_leading_zero_prepend_witness :
    (∀ x ∈ [97, 98, 99], x < 256) ∧
      ([97, 98, 99] = ([] : List Nat) ∨ ∃ d t, [97, 98, 99] = d :: t ∧ d ≠ 0) ∧
      ∃ s, toBase58 [97, 98, 99] = some s ∧
        toBase58 (List.replicate 2 0 ++ [97, 98, 99])
          = some (String.mk (List.replicate 2 '1' ++ s.data)) :=
  ⟨by decide, Or.inr ⟨97, [98, 99], rfl, by decide⟩,
    c3_leading_zero_prepend 2 [97, 98, 99] (by decide)
      (Or.inr ⟨97, [98, 99], rfl, by decide⟩)⟩

/-- Claim C4: `to_base58` of `N` zero bytes is exactly `N` copies of `'1'`,
and in particular the empty input encodes to the empty string. -/
theorem c4_all_zero_input (N : Nat) :
    toBase58 (List.replicate N 0) = some (String.mk (List.replicate N '1')) ∧
    toBase58 ([] : List Nat) = some "" := by
  constructor
  · have h := toBase58_correct (List.replicate N 0)
      (by intro x hx; have := List.eq_of_mem_replicate hx; omega)
    have hzc : ((List.replicate N 0).takeWhile (fun x => x == 0)).length = N := by
      have h2 := takeWhile_zeros_replicate_append N ([] : List Nat)
      simp only [List.append_nil] at h2
      rw [h2]
      simp
    have hv : val256 (List.replicate N 0) = 0 := by
      have h3 := val256_replicate_zero_append N []
      simpa using h3
    rw [h, hzc, hv]
    have h4 : (digits58 0).map (fun d => ALPHABET.getD d '1') = [] := rfl
    rw [h4, List.append_nil]
  · rfl

/-- Claim C5: `to_base58` is total on byte sequences: the subtraction
`len - zcount` cannot underflow (`zcount ≤ len`) and the conversion
succeeds with no out-of-bounds access (every buffer and alphabet index
taken by the checked embedding is in bounds). -/
theorem c5_totality (b : List Nat) (hb : ∀ x ∈ b, x < 256) :
    (b.takeWhile (fun x => x == 0)).length ≤ b.length ∧
    ∃ s, toBase58 b = some s :=
  ⟨(List.takeWhile_sublist _).length_le, ⟨_, toBase58_correct b hb⟩⟩

/-- Concrete instantiation of claim C5 at `[0, 0, 255]`. -/
theorem c5_totality_witness :
    (∀ x ∈ [0, 0, 255], x < 256) ∧
      (([0, 0, 255].takeWhile (fun x => x == 0)).length ≤ [0, 0, 255].length ∧
        ∃ s, toBase58 [0, 0, 255] = some s) :=
  ⟨by decide, c5_totality [0, 0, 255] (by decide)⟩

/-- Claim C6: with the loop invariant (digits below 58, incoming carry at
most 255 — as holds at loop entry, where the carry is an input byte), the
value of `carry` immediately after `carry += 256 * buffer[j]` never exceeds
`256 * 57 + 255`, and one loop iteration re-establishes the invariant, so
the bound holds throughout every scan; all values fit in 32 bits. -/
theorem c6_carry_bound (buffer : List Nat) (j carry bj : Nat)
    (hget : buffer.get? j = some bj)
    (hbuf : ∀ d ∈ buffer, d < 58) (hcarry : carry ≤ 255) :
    carry + 256 * bj ≤ 256 * 57 + 255 ∧
    (innerBody buffer j bj carry).2.2 ≤ 255 ∧
    ∀ d ∈ (innerBody buffer j bj carry).1, d < 58 := by
  have hbj : bj < 58 := hbuf bj (List.get?_mem hget)
  refine ⟨by omega, ?_, ?_⟩
  · rw [innerBody_carry]
    have h1 : carry + 256 * bj ≤ 14847 := by omega
    have h2 : (carry + 256 * bj) / 58 ≤ 14847 / 58 := Nat.div_le_div_right h1
    norm_num at h2
    exact h2
  · rw [innerBody_fst]
    intro d hd
    rcases List.mem_or_eq_of_mem_set hd with h | h
    · exact hbuf d h
    · subst h
      exact Nat.mod_lt _ (by norm_num)

/-- Concrete instantiation of claim C6 at `buffer = [57]`, `j = 0`,
`carry = 255`. -/
theorem c6_carry_bound_witness :
    ([57].get? 0 = some 57) ∧ (∀ d ∈ [57], d < 58) ∧ (255 ≤ 255) ∧
      (255 + 256 * 57 ≤ 256 * 57 + 255 ∧
        (innerBody [57] 0 57 255).2.2 ≤ 255 ∧
        ∀ d ∈ (innerBody [57] 0 57 255).1, d < 58) :=
  ⟨rfl, by decide, Nat.le_refl _,
    c6_carry_bound [57] 0 255 57 rfl (by decide) (Nat.le_refl _)⟩

/-- Claim C7: the work buffer of `(len - zcount) * 138 / 100 + 1` entries is
always large enough — the encoded magnitude has at most that many base-58
digits — and the conversion loop, given exactly one fuel unit per buffer
position per byte (so position 0 is processed at most once in each scan),
terminates successfully. -/
theorem c7_buffer_size_sufficient (b : List Nat) (hb : ∀ x ∈ b, x < 256) :
    (digits58 (val256 b)).length
        ≤ (b.length - (b.takeWhile (fun x => x == 0)).length) * 138 / 100 + 1 ∧
    ∃ r, processBytes
        ((b.length - (b.takeWhile (fun x => x == 0)).length) * 138 / 100 + 1)
        ((b.length - (b.takeWhile (fun x => x == 0)).length) * 138 / 100 + 1)
        (b.drop (b.takeWhile (fun x => x == 0)).length)
        (List.replicate
          ((b.length - (b.takeWhile (fun x => x == 0)).length) * 138 / 100 + 1) 0)
        ((b.length - (b.takeWhile (fun x => x == 0)).length) * 138 / 100 + 1 - 1)
      = some r := by
  refine ⟨(digits58_length_le _ _).mpr (val256_lt_pow58 b hb), ?_⟩
  have h := toBase58_correct b hb
  rcases hopt : processBytes
      ((b.length - (b.takeWhile (fun x => x == 0)).length) * 138 / 100 + 1)
      ((b.length - (b.takeWhile (fun x => x == 0)).length) * 138 / 100 + 1)
      (b.drop (b.takeWhile (fun x => x == 0)).length)
      (List.replicate
        ((b.length - (b.takeWhile (fun x => x == 0)).length) * 138 / 100 + 1) 0)
      ((b.length - (b.takeWhile (fun x => x == 0)).length) * 138 / 100 + 1 - 1)
      with _ | r
  · exfalso
    have hnone : toBase58 b = none := by
      rw [toBase58]
      simp only
      rw [hopt]
      rfl
    rw [hnone] at h
    cases h
  · exact ⟨r, rfl⟩

/-- Concrete instantiation of claim C7 at `[45, 49]`. -/
theorem c7_buffer_size_sufficient_witness :
    (∀ x ∈ [45, 49], x < 256) ∧
      ((digits58 (val256 [45, 49])).length
          ≤ ([45, 49].length - ([45, 49].takeWhile (fun x => x == 0)).length)
              * 138 / 100 + 1 ∧
        ∃ r, processBytes
            (([45, 49].length - ([45, 49].takeWhile (fun x => x == 0)).length)
              * 138 / 100 + 1)
            (([45, 49].length - ([45, 49].takeWhile (fun x => x == 0)).length)
              * 138 / 100 + 1)
            ([45, 49].drop ([45, 49].takeWhile (fun x => x == 0)).length)
            (List.replicate
              (([45, 49].length - ([45, 49].takeWhile (fun x => x == 0)).length)
                * 138 / 100 + 1) 0)
            (([45, 49].length - ([45, 49].takeWhile (fun x => x == 0)).length)
              * 138 / 100 + 1 - 1)
          = some r) :=
  ⟨by decide, c7_buffer_size_sufficient [45, 49] (by decide)⟩

/-- Claim C8: the alphabet is exactly the 58-character string
`123456789ABCDEFGHJKLMNPQRSTUVWXYZabcdefghijkmnopqrstuvwxyz`, with all
characters distinct, and every character of any encoding belongs to it. -/
theorem c8_alphabet_closure (b : List Nat) (hb : ∀ x ∈ b, x < 256) :
    ALPHABET = "123456789ABCDEFGHJKLMNPQRSTUVWXYZabcdefghijkmnopqrstuvwxyz".data ∧
    ALPHABET.length = 58 ∧ ALPHABET.Nodup ∧
    ∃ s, toBase58 b = some s ∧ ∀ ch ∈ s.data, ch ∈ ALPHABET := by
  refine ⟨rfl, rfl, by decide, _, toBase58_correct b hb, ?_⟩
  intro ch hch
  have hch2 : ch ∈ List.replicate (b.takeWhile (fun x => x == 0)).length '1'
      ++ (digits58 (val256 b)).map fun d => ALPHABET.getD d '1' := hch
  rcases List.mem_append.mp hch2 with h | h
  · have := List.eq_of_mem_replicate h
    subst this
    decide
  · obtain ⟨d, hd, rfl⟩ := List.mem_map.mp h
    have hd58 : d < 58 := digits58_mem_lt _ d hd
    have hlt : d < ALPHABET.length := by rw [ALPHABET_length]; exact hd58
    rw [List.getD_eq_getElem?_getD, List.getElem?_eq_getElem hlt]
    exact List.getElem_mem hlt

/-- Concrete instantiation of claim C8 at `[0, 97]`. -/
theorem c8_alphabet_closure_witness :
    (∀ x ∈ [0, 97], x < 256) ∧
      (ALPHABET
          = "123456789ABCDEFGHJKLMNPQRSTUVWXYZabcdefghijkmnopqrstuvwxyz".data ∧
        ALPHABET.length = 58 ∧ ALPHABET.Nodup ∧
        ∃ s, toBase58 [0, 97] = some s ∧ ∀ ch ∈ s.data, ch ∈ ALPHABET) :=
  ⟨by decide, c8_alphabet_closure [0, 97] (by decide)⟩

/-- Claim C9: appending a nonzero byte to a nonempty input never decreases
the length of the encoding. -/
theorem c9_length_monotone (b : List Nat) (c : Nat) (hbne : b ≠ [])
    (hb : ∀ x ∈ b, x < 256) (hc0 : c ≠ 0) (hc : c < 256) :
    ∃ s s', toBase58 b = some s ∧ toBase58 (b ++ [c]) = some s' ∧
      s.length ≤ s'.length := by
  have h1 := toBase58_correct b hb
  have hball : ∀ x ∈ b ++ [c], x < 256 := by
    intro x hx
    rcases List.mem_append.mp hx with h | h
    · exact hb x h
    · simp at h
      omega
  have h2 := toBase58_correct (b ++ [c]) hball
  refine ⟨_, _, h1, h2, ?_⟩
  show (List.replicate (b.takeWhile (fun x => x == 0)).length '1'
      ++ (digits58 (val256 b)).map fun d => ALPHABET.getD d '1').length
    ≤ (List.replicate ((b ++ [c]).takeWhile (fun x => x == 0)).length '1'
      ++ (digits58 (val256 (b ++ [c]))).map fun d => ALPHABET.getD d '1').length
  simp only [List.length_append, List.length_replicate, List.length_map]
  have hzc9 : ((b ++ [c]).takeWhile (fun x => x == 0)).length
      = (b.takeWhile (fun x => x == 0)).length :=
    takeWhile_length_append_singleton b c (by simp only [beq_eq_false_iff_ne, ne_eq]; exact hc0)
  have hvm : val256 b ≤ val256 (b ++ [c]) := by
    rw [val256_append_singleton]
    omega
  have hmono := digits58_length_mono _ _ hvm
  omega

/-- Concrete instantiation of claim C9 at `b = [49]`, `c = 49`. -/
theorem c9_length_monotone_witness :
    ([49] ≠ ([] : List Nat)) ∧ (∀ x ∈ [49], x < 256) ∧ (49 ≠ 0) ∧ (49 < 256) ∧
      ∃ s s', toBase58 [49] = some s ∧ toBase58 ([49] ++ [49]) = some s' ∧
        s.length ≤ s'.length :=
  ⟨by decide, by decide, by decide, by decide,
    c9_length_monotone [49] 49 (by decide) (by decide) (by decide) (by decide)⟩

/-- Claim C10: an input starting with a nonzero byte encodes to a nonempty
string whose first character is not `'1'`: the leading-zero-digit skip
guarantees the digit portion never starts with the zero digit. -/
theorem c10_no_leading_one_digit (d : Nat) (t : List Nat) (hd : d ≠ 0)
    (hb : ∀ x ∈ d :: t, x < 256) :
    ∃ s, toBase58 (d :: t) = some s ∧ s.data ≠ [] ∧ s.data.head? ≠ some '1' := by
  have h1 := toBase58_correct (d :: t) hb
  have hzc : ((d :: t).takeWhile (fun x => x == 0)).length = 0 := by
    have hdf : (d == 0) = false := by
      simp only [beq_eq_false_iff_ne, ne_eq]
      exact hd
    simp [List.takeWhile_cons, hdf]
  have hV : 0 < val256 (d :: t) := val256_cons_pos d t (by omega)
  obtain ⟨d₀, tl, hdtl, hd₀⟩ := digits58_cons_of_pos _ hV
  have hd₀58 : d₀ < 58 :=
    digits58_mem_lt (val256 (d :: t)) d₀ (by rw [hdtl]; exact List.mem_cons_self _ _)
  refine ⟨_, h1, ?_, ?_⟩
  · show (List.replicate ((d :: t).takeWhile (fun x => x == 0)).length '1'
      ++ (digits58 (val256 (d :: t))).map fun x => ALPHABET.getD x '1') ≠ []
    rw [hzc, hdtl]
    simp
  · show (List.replicate ((d :: t).takeWhile (fun x => x == 0)).length '1'
      ++ (digits58 (val256 (d :: t))).map fun x => ALPHABET.getD x '1').head? ≠ some '1'
    rw [hzc, hdtl]
    simp only [List.replicate, List.nil_append, List.map_cons, List.head?_cons,
      ne_eq, Option.some.injEq]
    exact alphabet_getD_ne_one d₀ hd₀58 (by omega)

/-- Concrete instantiation of claim C10 at `[45, 49]`. -/
theorem c10_no_leading_one_digit_witness :
    (45 ≠ 0) ∧ (∀ x ∈ [45, 49], x < 256) ∧
      ∃ s, toBase58 (45 :: [49]) = some s ∧ s.data ≠ [] ∧
        s.data.head? ≠ some '1' :=
  ⟨by decide, by decide, c10_no_leading_one_digit 45 [49] (by decide) (by decide)⟩

end Base58
